import Mathlib

/-!
A verification development for the publer-analytics-report program
(a Go command-line tool that reads three Publer analytics CSV exports,
normalizes them into typed records, and assembles a Markdown KPI report).

The embedding models the program at the level the claims speak about:

* Go strings are modelled as lists of characters (`GoStr`).  The data the
  program handles is ASCII apart from the filename delimiter, so character
  and byte offsets coincide on the modelled inputs.
* `float64` fields are modelled as rationals (`ℚ`): every arithmetic
  operation the program performs on them (sums, products, divisions by a
  nonzero integer total) is exact rational arithmetic, so rational results
  state the float invariants up to the floating-point tolerance the spec
  itself allows.
* Go `int` is modelled as unbounded `Int`; the counts involved are far from
  the 64-bit range in all the properties considered.
* CSV input is modelled at the record level: a file is a `List Row`, a `Row`
  a list of fields, exactly what `encoding/csv` hands the program
  (`LazyQuotes`, `TrimLeadingSpace`, `FieldsPerRecord = -1`).
* A Go function that can return an error or panic at runtime is modelled
  with `GoResult`: `.ok` for a normal return, `.err` for a returned error,
  `.panicked` for a runtime fault (index out of range).
-/

namespace Publer

/-- A Go string, modelled as its list of characters. -/
abbrev GoStr := List Char

/-- A CSV record as `encoding/csv` yields it: one list of fields. -/
abbrev Row := List GoStr

/-- The whitespace set of `unicode.IsSpace` restricted to ASCII, as used by
`strings.TrimSpace` and `strings.Fields` on the program's data. -/
def isGoSpace (c : Char) : Bool :=
  c == ' ' || c == '\t' || c == '\n' || c == '\x0b' || c == '\x0c' || c == '\r'

/-- `strings.TrimSpace`: drop leading and trailing whitespace. -/
def trimSpace (s : GoStr) : GoStr :=
  ((s.dropWhile isGoSpace).reverse.dropWhile isGoSpace).reverse

/-- `strings.HasPrefix s p` (`startsWithStr p s`): `p` starts the string `s`. -/
def startsWithStr : GoStr → GoStr → Bool
  | [], _ => true
  | _ :: _, [] => false
  | c :: cs, d :: ds => c == d && startsWithStr cs ds

/-- `strings.HasSuffix s suf`, via the reversed strings. -/
def endsWithStr (suf s : GoStr) : Bool :=
  startsWithStr suf.reverse s.reverse

/-- `strings.TrimSuffix s suf`: drop `suf` from the end when present. -/
def trimSuffixStr (suf s : GoStr) : GoStr :=
  if endsWithStr suf s then (s.reverse.drop suf.length).reverse else s

/-- `strings.Split s (String sep)` for a one-character separator: the
fields between occurrences of `sep`; never the empty list. -/
def splitOnChar (sep : Char) : GoStr → List GoStr
  | [] => [[]]
  | c :: cs =>
    match splitOnChar sep cs with
    | [] => [[c]]
    | w :: ws => if c == sep then [] :: w :: ws else (c :: w) :: ws

/-- `strings.ReplaceAll s (String old) (String new)` for one-character
old and new strings. -/
def replaceChar (old new : Char) (s : GoStr) : GoStr :=
  s.map fun c => if c == old then new else c

/-- The string split at every whitespace character (empty pieces kept):
the auxiliary of `fieldsWS`. -/
def splitWS : GoStr → List GoStr
  | [] => [[]]
  | c :: cs =>
    match splitWS cs with
    | [] => [[c]]
    | w :: ws => if isGoSpace c then [] :: w :: ws else (c :: w) :: ws

/-- `strings.Fields`: the maximal runs of non-whitespace characters, i.e.
the nonempty pieces between whitespace characters. -/
def fieldsWS (s : GoStr) : List GoStr :=
  (splitWS s).filter fun w => !w.isEmpty

/-- `strings.Join ws " "`. -/
def joinSpace : List GoStr → GoStr
  | [] => []
  | [w] => w
  | w :: ws => w ++ ' ' :: joinSpace ws

/-- Decimal digit test, as `unicode` digits restricted to ASCII. -/
def isDigitCh (c : Char) : Bool :=
  '0' ≤ c && c ≤ '9'

/-- The numeric value of a list of decimal digits (most significant first). -/
def digitsVal (ds : GoStr) : Nat :=
  ds.foldl (fun acc c => 10 * acc + (c.toNat - '0'.toNat)) 0

/-- `fmt.Sscanf(s, "%d", &x)` with `x` starting at zero: an optional sign
followed by a maximal digit run is read from the front of `s`; when no digit
is found the scan fails and `x` keeps its zero value. -/
def parseIntTol (s : GoStr) : Int :=
  let body := fun (sign : Int) (t : GoStr) =>
    let ds := t.takeWhile isDigitCh
    if ds.isEmpty then 0 else sign * (digitsVal ds : Int)
  match s with
  | '-' :: t => body (-1) t
  | '+' :: t => body 1 t
  | t => body 1 t

/-- The fractional value of digits after a decimal point, as a rational. -/
def fracVal (ds : GoStr) : ℚ :=
  ds.foldr (fun c acc => (((c.toNat - '0'.toNat : Nat) : ℚ) + acc) / 10) 0

/-- `fmt.Sscanf(s, "%f", &x)` with `x` starting at zero: an optional sign,
integer digits, and an optional fractional part are read from the front of
`s`; with no digit at all the scan fails and `x` keeps its zero value. -/
def parseRatTol (s : GoStr) : ℚ :=
  let body := fun (sign : ℚ) (t : GoStr) =>
    let ds := t.takeWhile isDigitCh
    let rest := t.dropWhile isDigitCh
    let fs := match rest with
      | '.' :: u => u.takeWhile isDigitCh
      | _ => []
    if ds.isEmpty && fs.isEmpty then 0
    else sign * ((digitsVal ds : ℚ) + fracVal fs)
  match s with
  | '-' :: t => body (-1) t
  | '+' :: t => body 1 t
  | t => body 1 t

/-- `strconv.Atoi`: the whole string must be an optional sign followed by at
least one digit; any other shape is an error (`none`). -/
def parseAtoi (s : GoStr) : Option Int :=
  let digits := fun (sign : Int) (t : GoStr) =>
    if t ≠ [] && t.all isDigitCh then some (sign * (digitsVal t : Int)) else none
  match s with
  | '-' :: t => digits (-1) t
  | '+' :: t => digits 1 t
  | t => digits 1 t

/-- Field access `r[i]` once a bound on `r`'s length is established; the
default is never reached at the guarded call sites. -/
def getF (r : Row) (i : Nat) : GoStr :=
  r.getD i []

/-- The outcome of a Go call: a value, a returned error, or a runtime panic
(index out of range). -/
inductive GoResult (α : Type) where
  | ok : α → GoResult α
  | err : GoResult α
  | panicked : GoResult α
deriving DecidableEq, Repr

/-- `OverviewData` of main.go. -/
structure CountryData where
  Country : GoStr := []
  Users : Int := 0
  Percentage : ℚ := 0
deriving DecidableEq, Repr

/-- `OverviewData` of main.go; rates are `float64` in Go, modelled as `ℚ`. -/
structure OverviewData where
  WorkspaceName : GoStr := []
  Followers : Int := 0
  Reach : Int := 0
  ReachRate : ℚ := 0
  Engagements : Int := 0
  EngagementRate : ℚ := 0
  TopCountries : List CountryData := []
deriving DecidableEq, Repr

/-- `PostData` of main.go (the fields the program never assigns keep their
Go zero values). -/
structure PostData where
  Date : GoStr := []
  SocialAccount : GoStr := []
  SocialNetwork : GoStr := []
  PostLink : GoStr := []
  PostText : GoStr := []
  PostType : GoStr := []
  Reach : Int := 0
  ReachRate : ℚ := 0
  Reactions : Int := 0
  Comments : Int := 0
  Shares : Int := 0
  EngagementRate : ℚ := 0
  LinkClicks : Int := 0
  ClickThroughRate : ℚ := 0
deriving DecidableEq, Repr

/-- `HashtagData` of main.go. -/
structure HashtagData where
  Hashtag : GoStr := []
  Score : ℚ := 0
  Reach : Int := 0
  Reactions : Int := 0
  Comments : Int := 0
  Shares : Int := 0
  VideoViews : Int := 0
deriving DecidableEq, Repr

/-- `ReportData` of main.go. -/
structure ReportData where
  Month : GoStr := []
  Period : GoStr := []
  Followers : Int := 0
  FollowersChange : Int := 0
  Reach : Int := 0
  ReachChange : ℚ := 0
  Engagements : Int := 0
  EngagementsChange : ℚ := 0
  EngagementRate : ℚ := 0
  EngagementRateChange : ℚ := 0
  TopPosts : List PostData := []
  TopHashtags : List HashtagData := []
  TopCountries : List CountryData := []
  Insights : GoStr := []
  NextSteps : GoStr := []
deriving DecidableEq, Repr

/-! ### `readOverviewFile` (main.go)

The reader is modelled from the point where `encoding/csv` has produced
records: the file is a `List Row`.  Reading past the end of the record list
is the reader returning an error (`io.EOF` or any read error is returned
unchanged by the Go code at the two guarded `Read` calls). -/

/-- The sentinel the overview reader scans for first. -/
def wsSentinel : GoStr := "Workspace Name".toList

/-- The sentinel announcing the country table. -/
def tcSentinel : GoStr := "Top Countries".toList

/-- The marker that ends the country table when a row restarts with it. -/
def topMarker : GoStr := "Top".toList

/-- The scan loop `for { rec, err = reader.Read(); ... }` of
`readOverviewFile`: rows are consumed until one whose trimmed first field
starts with `sent`; the rows after that one are returned, `none` at
end-of-input. -/
def findRowWith (sent : GoStr) : List Row → Option (List Row)
  | [] => none
  | r :: rs =>
    if !r.isEmpty && startsWithStr sent (trimSpace (getF r 0)) then some rs
    else findRowWith sent rs

/-- The scalar assignments of `readOverviewFile` on the data row following
the workspace sentinel (`f0` is the row's first field, whose access is the
caller's). -/
def parseOverviewScalars (rec : Row) (f0 : GoStr) : OverviewData :=
  { WorkspaceName := trimSpace f0
    Followers := if 2 < rec.length then parseIntTol (trimSpace (getF rec 2)) else 0
    Reach := if 3 < rec.length then parseIntTol (trimSpace (getF rec 3)) else 0
    ReachRate := if 4 < rec.length then parseRatTol (trimSpace (getF rec 4)) else 0
    Engagements := if 6 < rec.length then parseIntTol (trimSpace (getF rec 6)) else 0
    EngagementRate :=
      if 7 < rec.length then parseRatTol (trimSpace (trimSuffixStr ['%'] (getF rec 7)))
      else 0
    TopCountries := [] }

/-- The country loop of `readOverviewFile`: rows are read until end-of-input,
a row with fewer than two fields, an empty trimmed name, a name restarting
with `Top`, an empty user-count field, or a user count `strconv.Atoi`
rejects; each remaining row contributes its `(name, users)` pair. -/
def parseCountryPairs : List Row → List (GoStr × Int)
  | [] => []
  | r :: rs =>
    match r with
    | f0 :: f1 :: _ =>
      let name := trimSpace f0
      if name.isEmpty || startsWithStr topMarker name then []
      else if (trimSpace f1).isEmpty then []
      else
        match parseAtoi (trimSpace f1) with
        | none => []
        | some u => (name, u) :: parseCountryPairs rs
    | _ => []

/-- The running total `total += country.Users` of the country loop. -/
def usersTotal (ps : List (GoStr × Int)) : Int :=
  (ps.map Prod.snd).sum

/-- The percentage formula of `readOverviewFile`:
`float64(Users) * 100.0 / float64(total)`, guarded by `total > 0`. -/
def pctOfUsers (total u : Int) : ℚ :=
  if 0 < total then ((u : ℚ) * 100) / (total : ℚ) else 0

/-- The percentage pass of `readOverviewFile` on one parsed country pair. -/
def assignPct (total : Int) (p : GoStr × Int) : CountryData :=
  { Country := p.1
    Users := p.2
    Percentage := pctOfUsers total p.2 }

/-- `readOverviewFile` of main.go over the record list of the overview file. -/
def readOverviewFile (rows : List Row) : GoResult OverviewData :=
  match findRowWith wsSentinel rows with
  | none => .err
  | some rest =>
    match rest with
    | [] => .err
    | rec :: rest2 =>
      match rec with
      | [] => .panicked
      | f0 :: _ =>
        let d0 := parseOverviewScalars rec f0
        let cpairs :=
          match findRowWith tcSentinel rest2 with
          | none => []
          | some crows => parseCountryPairs crows
        let total := usersTotal cpairs
        .ok { d0 with TopCountries := cpairs.map (assignPct total) }

/-! ### `readPostInsightsFile` and `readHashtagAnalysisFile` (main.go) -/

/-- The post type the post reader retains. -/
def statusMarker : GoStr := "Status".toList

/-- The record the post loop appends for a retained row. -/
def mkPost (r : Row) : PostData :=
  { PostType := trimSpace (getF r 5)
    PostText := trimSpace (getF r 4)
    Reactions :=
      if getF r 8 ≠ [] ∧ getF r 8 ≠ ['-'] then parseIntTol (trimSpace (getF r 8))
      else 0 }

/-- The data-row loop of `readPostInsightsFile`: rows with fewer than eight
fields are skipped; a `Status` row then has `record[8]` read, which panics
(index out of range) when the row has exactly eight fields. -/
def readPostRows : List Row → GoResult (List PostData)
  | [] => .ok []
  | r :: rs =>
    if r.length < 8 then readPostRows rs
    else if trimSpace (getF r 5) = statusMarker then
      if r.length < 9 then .panicked
      else
        match readPostRows rs with
        | .ok ps => .ok (mkPost r :: ps)
        | e => e
    else readPostRows rs

/-- `readPostInsightsFile` of main.go: four preamble records are skipped
(an error when the file is shorter), then the data-row loop runs. -/
def readPostInsightsFile (rows : List Row) : GoResult (List PostData) :=
  if rows.length < 4 then .err else readPostRows (rows.drop 4)

/-- The record the hashtag loop appends. -/
def mkHashtag (r : Row) : HashtagData :=
  { Hashtag := trimSpace (getF r 0)
    Score := if getF r 4 ≠ [] then parseRatTol (trimSpace (getF r 4)) else 0
    Reach := if getF r 5 ≠ [] then parseIntTol (trimSpace (getF r 5)) else 0
    Reactions := if getF r 6 ≠ [] then parseIntTol (trimSpace (getF r 6)) else 0
    Comments := if getF r 7 ≠ [] then parseIntTol (trimSpace (getF r 7)) else 0
    Shares := if getF r 8 ≠ [] then parseIntTol (trimSpace (getF r 8)) else 0
    VideoViews := if getF r 9 ≠ [] then parseIntTol (trimSpace (getF r 9)) else 0 }

/-- The data-row loop of `readHashtagAnalysisFile`: rows with fewer than six
fields are skipped; the remaining rows have `record[6]` … `record[9]` read
unconditionally, which panics when the row has six to nine fields. -/
def readHashtagRows : List Row → GoResult (List HashtagData)
  | [] => .ok []
  | r :: rs =>
    if r.length < 6 then readHashtagRows rs
    else if r.length < 10 then .panicked
    else
      match readHashtagRows rs with
      | .ok hs => .ok (mkHashtag r :: hs)
      | e => e

/-- `readHashtagAnalysisFile` of main.go. -/
def readHashtagAnalysisFile (rows : List Row) : GoResult (List HashtagData) :=
  if rows.length < 4 then .err else readHashtagRows (rows.drop 4)

/-! ### Filename handling (main.go) -/

/-- The multi-byte delimiter of the Publer filename convention. -/
def bulletCh : Char := '∙'

/-- The filename suffix trimmed from the date segment. -/
def csvSuffix : GoStr := ".csv".toList

/-- `monthMap` of `extractDateFromFilename`. -/
def monthNumPairs : List (GoStr × GoStr) :=
  [("Jan".toList, "01".toList), ("Feb".toList, "02".toList),
   ("Mar".toList, "03".toList), ("Apr".toList, "04".toList),
   ("May".toList, "05".toList), ("Jun".toList, "06".toList),
   ("Jul".toList, "07".toList), ("Aug".toList, "08".toList),
   ("Sep".toList, "09".toList), ("Oct".toList, "10".toList),
   ("Nov".toList, "11".toList), ("Dec".toList, "12".toList)]

/-- `monthNames` of `extractMonthFromFilename`. -/
def monthNamePairs : List (GoStr × GoStr) :=
  [("Jan".toList, "January".toList), ("Feb".toList, "February".toList),
   ("Mar".toList, "March".toList), ("Apr".toList, "April".toList),
   ("May".toList, "May".toList), ("Jun".toList, "June".toList),
   ("Jul".toList, "July".toList), ("Aug".toList, "August".toList),
   ("Sep".toList, "September".toList), ("Oct".toList, "October".toList),
   ("Nov".toList, "November".toList), ("Dec".toList, "December".toList)]

/-- A Go map lookup `m[k]` with its `ok` flag, over an association list. -/
def lookupStr (m : List (GoStr × GoStr)) (k : GoStr) : Option GoStr :=
  (m.find? fun p => p.1 == k).map Prod.snd

/-- The local `datePart` of `extractDateFromFilename`: the last delimiter
segment, trimmed, with `.csv` removed. -/
def edDatePart (filename : GoStr) : GoStr :=
  trimSuffixStr csvSuffix (trimSpace ((splitOnChar bulletCh filename).getLastD []))

/-- The local `dateRange` of `extractDateFromFilename`: the date part split
at every hyphen. -/
def edDateRange (filename : GoStr) : List GoStr :=
  splitOnChar '-' (edDatePart filename)

/-- The local `dateComponents` of `extractDateFromFilename`: the trimmed
start date split into fields. -/
def edComps (filename : GoStr) : List GoStr :=
  fieldsWS (trimSpace ((edDateRange filename).headD []))

/-- `extractDateFromFilename` of main.go: the `YYYY-MM` period key, or a
format error (`fmt.Errorf`, carrying no key). -/
def extractDateFromFilename (filename : GoStr) : Except Unit GoStr :=
  if (splitOnChar bulletCh filename).length < 3 then .error ()
  else if (edDateRange filename).length < 1 then .error ()
  else if (edComps filename).length < 3 then .error ()
  else
    match lookupStr monthNumPairs ((edComps filename).getD 1 []) with
    | none => .error ()
    | some mn => .ok ((edComps filename).getD 2 [] ++ '-' :: mn)

/-- `extractPeriodFromFilename` of main.go. -/
def extractPeriodFromFilename (filename : GoStr) : GoStr :=
  let parts := splitOnChar bulletCh filename
  if parts.length < 3 then "Unknown Period".toList
  else trimSuffixStr csvSuffix (trimSpace (parts.getLastD []))

/-- `extractMonthFromFilename` of main.go. -/
def extractMonthFromFilename (filename : GoStr) : GoStr :=
  let period := extractPeriodFromFilename filename
  let dateRange := splitOnChar '-' period
  if dateRange.length < 1 then "Unknown Month".toList
  else
    let startDate := trimSpace (dateRange.headD [])
    let comps := fieldsWS startDate
    if comps.length < 3 then "Unknown Month".toList
    else
      match lookupStr monthNamePairs (comps.getD 1 []) with
      | none => "Unknown Month".toList
      | some name => name ++ ' ' :: comps.getD 2 []

/-! ### `sort.Slice` and `prepareReportData` (main.go) -/

/-- Modelled from the Go standard library: `prepareReportData` sorts with
`sort.Slice`, the one function of the program whose code is not in the
repository.  Its documented contract is that it sorts the slice according
to the provided less function and that the sort is NOT guaranteed to be
stable: equal elements may be reversed from their original order (the
implementation is an unstable pattern-defeating quicksort).  The model is
an executable unstable quicksort realizing exactly that contract: every
element the pivot is not strictly before moves in front of the pivot, so
elements equal under the ordering are reversed. -/
def sortSliceFuel (less : α → α → Bool) : Nat → List α → List α
  | _, [] => []
  | 0, _ :: _ => []
  | fuel + 1, p :: rest =>
    sortSliceFuel less fuel (rest.filter fun x => !less p x) ++
      p :: sortSliceFuel less fuel (rest.filter fun x => less p x)

/-- The sort model at adequate fuel (the filters only shrink the list, so
the fuel `l.length` always suffices; see `sortSlice_cons`). -/
def sortSlice (less : α → α → Bool) (l : List α) : List α :=
  sortSliceFuel less l.length l

/-- The comparison closure `posts[i].Reactions > posts[j].Reactions`. -/
def postLess (a b : PostData) : Bool :=
  decide (b.Reactions < a.Reactions)

/-- The comparison closure `hashtags[i].Score > hashtags[j].Score`. -/
def hashtagLess (a b : HashtagData) : Bool :=
  decide (b.Score < a.Score)

/-- The comparison closure on countries, `Users` descending. -/
def countryLess (a b : CountryData) : Bool :=
  decide (b.Users < a.Users)

/-- `prepareReportData` of main.go: period and month labels from the
overview filename, summary metrics copied, all four change fields zero,
each top list sorted descending by its metric and cut to five. -/
def prepareReportData (overview : OverviewData) (posts : List PostData)
    (hashtags : List HashtagData) (overviewFile : GoStr) : ReportData :=
  { Month := extractMonthFromFilename overviewFile
    Period := extractPeriodFromFilename overviewFile
    Followers := overview.Followers
    FollowersChange := 0
    Reach := overview.Reach
    ReachChange := 0
    Engagements := overview.Engagements
    EngagementsChange := 0
    EngagementRate := overview.EngagementRate
    EngagementRateChange := 0
    TopCountries := (sortSlice countryLess overview.TopCountries).take 5
    TopPosts := (sortSlice postLess posts).take 5
    TopHashtags := (sortSlice hashtagLess hashtags).take 5
    Insights := []
    NextSteps := [] }

/-! ### The `truncate` template function (main.go, `generateReport`) -/

/-- The cleaning steps of the `truncate` template function: newlines and
carriage returns become spaces, then `strings.Fields`/`strings.Join`
collapse whitespace runs. -/
def collapseWS (s : GoStr) : GoStr :=
  joinSpace (fieldsWS (replaceChar '\r' ' ' (replaceChar '\n' ' ' s)))

/-- The UTF-8 encoding of one character, as Go lays strings out in memory:
one to four bytes depending on the code point. -/
def utf8Bytes (c : Char) : List Nat :=
  let n := c.toNat
  if n < 128 then [n]
  else if n < 2048 then [192 + n / 64, 128 + n % 64]
  else if n < 65536 then [224 + n / 4096, 128 + n / 64 % 64, 128 + n % 64]
  else [240 + n / 262144, 128 + n / 4096 % 64, 128 + n / 64 % 64, 128 + n % 64]

/-- The UTF-8 byte sequence of a string: Go's `len` and slicing act on it. -/
def strBytes : GoStr → List Nat
  | [] => []
  | c :: cs => utf8Bytes c ++ strBytes cs

/-- The `truncate` template function of `generateReport`. Go's `len(clean)`
and `clean[:length]` measure and slice BYTES, so the result is a byte
string; the cut may fall inside a multi-byte character. -/
def truncate (s : GoStr) (n : Nat) : List Nat :=
  let clean := strBytes (collapseWS s)
  if clean.length ≤ n then clean
  else clean.take n ++ strBytes "...".toList

/-! ### Derived values the claims speak about -/

/-- The sum of the displayed country percentages. -/
def sumPct (cs : List CountryData) : ℚ :=
  (cs.map CountryData.Percentage).sum

/-- The sum of the country user counts. -/
def sumUsers (cs : List CountryData) : Int :=
  (cs.map CountryData.Users).sum

/-- The countries the top-five selection drops: everything after the fifth
position of the sorted country list. -/
def droppedCountries (overview : OverviewData) : List CountryData :=
  (sortSlice countryLess overview.TopCountries).drop 5

/-- Whether some record's trimmed first field starts with the workspace
sentinel: the overview reader's first scan succeeds exactly on such input. -/
def wsSentinelFound (rows : List Row) : Bool :=
  rows.any fun r => !r.isEmpty && startsWithStr wsSentinel (trimSpace (getF r 0))

/-- The spec's own description of text cleaning, stated independently of
the code, as a scan: `inRun` records whether the previous character was
whitespace; the first whitespace character of a run becomes one space and
the rest of the run is dropped. -/
def runCollapseF (inRun : Bool) : GoStr → GoStr
  | [] => []
  | c :: cs =>
    if isGoSpace c then
      if inRun then runCollapseF true cs else ' ' :: runCollapseF true cs
    else c :: runCollapseF false cs

/-- The spec's own description of text cleaning: every maximal run of
whitespace (newlines and carriage returns included) becomes one space. -/
def runCollapse (s : GoStr) : GoStr :=
  runCollapseF false s

/-! ### Concrete inputs used by the closed theorems -/

/-- Four preamble records, as the post/hashtag files carry. -/
def preambleRows : List Row :=
  [["h1".toList], ["h2".toList], ["h3".toList], ["h4".toList]]

/-- A post data row with exactly eight fields whose type field is the
status marker: the reader then evaluates `record[8]`, one past the row. -/
def eightFieldStatusRow : Row :=
  ["1 Jul".toList, "acc".toList, "net".toList, "link".toList,
   "text".toList, "Status".toList, "10".toList, "5%".toList]

/-- The post file around the eight-field status row. -/
def c4PostRows : List Row :=
  preambleRows ++ [eightFieldStatusRow]

/-- A hashtag data row with exactly six fields: the reader then evaluates
`record[6]`, one past the row. -/
def sixFieldHashtagRow : Row :=
  ["#go".toList, "x".toList, "y".toList, "z".toList, "3.5".toList, "100".toList]

/-- The hashtag file around the six-field row. -/
def c4HashtagRows : List Row :=
  preambleRows ++ [sixFieldHashtagRow]

/-- A post file holding one Status row with reactions 42 and one Photo row
with reactions 999. -/
def statusPhotoRows : List Row :=
  preambleRows ++
    [["1 Jul".toList, "acc".toList, "net".toList, "link".toList,
      "hello world".toList, "Status".toList, "100".toList, "5%".toList,
      "42".toList],
     ["2 Jul".toList, "acc".toList, "net".toList, "link".toList,
      "pic".toList, "Photo".toList, "900".toList, "9%".toList,
      "999".toList]]

/-- The one record the reader retains from `statusPhotoRows`. -/
def statusPost42 : PostData :=
  { PostText := "hello world".toList, PostType := statusMarker, Reactions := 42 }

/-- An overview file whose country table carries user counts 60 and 40. -/
def overviewRows6040 : List Row :=
  [["Workspace Name".toList, "".toList],
   ["ACME".toList, "".toList, "100".toList],
   ["Top Countries".toList, "Users".toList],
   ["A".toList, "60".toList],
   ["B".toList, "40".toList]]

/-- The parse of `overviewRows6040`: user counts 60 and 40 become
percentages 60 and 40. -/
def overview6040 : OverviewData :=
  { WorkspaceName := "ACME".toList
    Followers := 100
    TopCountries :=
      [{ Country := "A".toList, Users := 60, Percentage := pctOfUsers 100 60 },
       { Country := "B".toList, Users := 40, Percentage := pctOfUsers 100 40 }] }

/-- An overview file ending right after the workspace sentinel row. -/
def sentinelOnlyRows : List Row :=
  [["Workspace Name".toList, "Total".toList]]

/-- An overview file whose country table holds six countries, five with one
user each and a sixth with zero users. -/
def sixCountryRows : List Row :=
  [["Workspace Name".toList, "".toList],
   ["ACME".toList, "".toList, "100".toList],
   ["Top Countries".toList, "Users".toList],
   ["Germany".toList, "1".toList],
   ["France".toList, "1".toList],
   ["Spain".toList, "1".toList],
   ["Italy".toList, "1".toList],
   ["Poland".toList, "1".toList],
   ["Austria".toList, "0".toList]]

/-- The parse of `sixCountryRows`: six countries, percentages over the full
user total of five. -/
def sixCountryOverview : OverviewData :=
  { WorkspaceName := "ACME".toList
    Followers := 100
    TopCountries :=
      [{ Country := "Germany".toList, Users := 1, Percentage := pctOfUsers 5 1 },
       { Country := "France".toList, Users := 1, Percentage := pctOfUsers 5 1 },
       { Country := "Spain".toList, Users := 1, Percentage := pctOfUsers 5 1 },
       { Country := "Italy".toList, Users := 1, Percentage := pctOfUsers 5 1 },
       { Country := "Poland".toList, Users := 1, Percentage := pctOfUsers 5 1 },
       { Country := "Austria".toList, Users := 0, Percentage := pctOfUsers 5 0 }] }

/-- A sixty-character display text. -/
def sixtyChars : GoStr :=
  "aaaaaaaaaabbbbbbbbbbccccccccccddddddddddeeeeeeeeeeffffffffff".toList

/-- A fifty-character display text. -/
def fiftyChars : GoStr :=
  "aaaaaaaaaabbbbbbbbbbccccccccccddddddddddeeeeeeeeee".toList

/-- A display text of twenty-six copies of a two-byte character: twenty-six
characters, fifty-two UTF-8 bytes. -/
def accented26 : GoStr :=
  List.replicate 26 'é'

/-! ## Lemmas about the sort model -/

theorem sortSliceFuel_congr (less : α → α → Bool) :
    ∀ fuel₁ : Nat, ∀ fuel₂ : Nat, ∀ l : List α,
      l.length ≤ fuel₁ → l.length ≤ fuel₂ →
      sortSliceFuel less fuel₁ l = sortSliceFuel less fuel₂ l := by
  intro fuel₁
  induction fuel₁ with
  | zero =>
    intro fuel₂ l h1 _
    have hl : l = [] := List.length_eq_zero.mp (Nat.le_zero.mp h1)
    subst hl
    cases fuel₂ <;> rfl
  | succ f ih =>
    intro fuel₂ l h1 h2
    cases l with
    | nil => cases fuel₂ <;> rfl
    | cons p rest =>
      cases fuel₂ with
      | zero => simp at h2
      | succ f2 =>
        simp only [sortSliceFuel]
        have hn : (rest.filter fun x => !less p x).length ≤ rest.length :=
          List.length_filter_le _ _
        have hy : (rest.filter fun x => less p x).length ≤ rest.length :=
          List.length_filter_le _ _
        simp only [List.length_cons, Nat.succ_le_succ_iff] at h1 h2
        rw [ih f2 _ (le_trans hn h1) (le_trans hn h2),
          ih f2 _ (le_trans hy h1) (le_trans hy h2)]

theorem sortSlice_cons (less : α → α → Bool) (p : α) (rest : List α) :
    sortSlice less (p :: rest) =
      sortSlice less (rest.filter fun x => !less p x) ++
        p :: sortSlice less (rest.filter fun x => less p x) := by
  show sortSliceFuel less (rest.length + 1) (p :: rest) = _
  simp only [sortSliceFuel, sortSlice]
  have hn : (rest.filter fun x => !less p x).length ≤ rest.length :=
    List.length_filter_le _ _
  have hy : (rest.filter fun x => less p x).length ≤ rest.length :=
    List.length_filter_le _ _
  rw [sortSliceFuel_congr less rest.length _ _ hn le_rfl,
    sortSliceFuel_congr less rest.length _ _ hy le_rfl]

theorem sortSlice_perm_aux (less : α → α → Bool) :
    ∀ n : Nat, ∀ l : List α, l.length ≤ n →
      List.Perm (sortSlice less l) l := by
  intro n
  induction n with
  | zero =>
    intro l h
    have hl : l = [] := List.length_eq_zero.mp (Nat.le_zero.mp h)
    subst hl
    exact List.Perm.refl _
  | succ n ih =>
    intro l h
    cases l with
    | nil => exact List.Perm.refl _
    | cons p rest =>
      rw [sortSlice_cons]
      simp only [List.length_cons, Nat.succ_le_succ_iff] at h
      have hn : (rest.filter fun x => !less p x).length ≤ rest.length :=
        List.length_filter_le _ _
      have hy : (rest.filter fun x => less p x).length ≤ rest.length :=
        List.length_filter_le _ _
      have h1 := ih _ (le_trans hn h)
      have h2 := ih _ (le_trans hy h)
      refine (h1.append (List.Perm.cons p h2)).trans ?_
      refine List.perm_middle.trans ?_
      refine List.Perm.cons p ?_
      refine List.perm_append_comm.trans ?_
      exact List.filter_append_perm _ rest

theorem sortSlice_perm (less : α → α → Bool) (l : List α) :
    List.Perm (sortSlice less l) l :=
  sortSlice_perm_aux less l.length l le_rfl

theorem mem_sortSlice (less : α → α → Bool) (l : List α) (x : α) :
    x ∈ sortSlice less l ↔ x ∈ l :=
  (sortSlice_perm less l).mem_iff

/-- C2 (the code at the claim's input): `prepareReportData` sets every one
of the four change fields to the literal zero, for every input; no previous
snapshot is consulted anywhere (the program keeps no store and computes no
previous period), so the deltas the claim describes are never produced. -/
theorem C2_all_deltas_zero (overview : OverviewData) (posts : List PostData)
    (hashtags : List HashtagData) (f : GoStr) :
    (prepareReportData overview posts hashtags f).FollowersChange = 0 ∧
    (prepareReportData overview posts hashtags f).ReachChange = 0 ∧
    (prepareReportData overview posts hashtags f).EngagementsChange = 0 ∧
    (prepareReportData overview posts hashtags f).EngagementRateChange = 0 :=
  ⟨rfl, rfl, rfl, rfl⟩

/-! ## C4: bounds of the row readers -/

/-- C4 (the code at the failing inputs): a post row with exactly eight
fields whose type is `Status` makes `readPostInsightsFile` evaluate
`record[8]` out of bounds, and a hashtag row with exactly six fields makes
`readHashtagAnalysisFile` evaluate `record[6]` out of bounds: both fault
instead of normalizing or skipping the row. -/
theorem C4_out_of_bounds_on_short_rows :
    readPostInsightsFile c4PostRows = .panicked ∧
    readHashtagAnalysisFile c4HashtagRows = .panicked :=
  ⟨by decide, by decide⟩

/-! ## C6: the Status filter of the post reader -/

theorem readPostRows_full (data : List Row)
    (h : ∀ r ∈ data, trimSpace (getF r 5) = statusMarker →
      8 ≤ r.length → 9 ≤ r.length) :
    readPostRows data =
      .ok ((data.filter fun r =>
        decide (8 ≤ r.length) &&
          decide (trimSpace (getF r 5) = statusMarker)).map mkPost) := by
  induction data with
  | nil => rfl
  | cons r rs ih =>
    have hr := h r (List.mem_cons_self r rs)
    have hrs : ∀ x ∈ rs, trimSpace (getF x 5) = statusMarker →
        8 ≤ x.length → 9 ≤ x.length :=
      fun x hx => h x (List.mem_cons_of_mem r hx)
    by_cases h8 : r.length < 8
    · simp only [readPostRows, if_pos h8]
      rw [ih hrs]
      have : ¬8 ≤ r.length := by omega
      simp [List.filter_cons, this]
    · simp only [readPostRows, if_neg h8]
      by_cases hs : trimSpace (getF r 5) = statusMarker
      · have h9 : ¬r.length < 9 := by
          have := hr hs (by omega)
          omega
        rw [if_pos hs, if_neg h9, ih hrs]
        have : 8 ≤ r.length := by omega
        simp [List.filter_cons, hs, this]
      · rw [if_neg hs, ih hrs]
        simp [List.filter_cons, hs]

/-- C6: provided every `Status` row has the reactions column the reader
reads (at least nine fields, so that the `record[8]` access stays in
bounds — the eight-field corner case is C4's fault), the post reader
retains exactly the rows with at least eight fields whose trimmed type
field is the status marker, maps each to its record, and discards every
other row at normalization time; and on the concrete input with a `Status`
row of reactions 42 and a `Photo` row of reactions 999 it yields exactly
the one record, with reaction count 42. -/
theorem C6_status_rows_retained :
    (∀ pre data, pre.length = 4 →
      (∀ r ∈ data, trimSpace (getF r 5) = statusMarker →
        8 ≤ r.length → 9 ≤ r.length) →
      readPostInsightsFile (pre ++ data) =
        .ok ((data.filter fun r =>
          decide (8 ≤ r.length) &&
            decide (trimSpace (getF r 5) = statusMarker)).map mkPost)) ∧
    readPostInsightsFile statusPhotoRows = .ok [statusPost42] := by
  constructor
  · intro pre data hpre hdata
    unfold readPostInsightsFile
    have hlen : ¬(pre ++ data).length < 4 := by
      rw [List.length_append, hpre]
      omega
    rw [if_neg hlen, ← hpre, List.drop_left]
    exact readPostRows_full data hdata
  · decide

/-! ## C5: country percentage shares -/

theorem readOverviewFile_countries (rows : List Row) (d : OverviewData)
    (h : readOverviewFile rows = .ok d) :
    ∃ cpairs : List (GoStr × Int),
      d.TopCountries = cpairs.map (assignPct (usersTotal cpairs)) := by
  unfold readOverviewFile at h
  split at h
  · exact absurd h (by simp)
  · split at h
    · exact absurd h (by simp)
    · split at h
      · exact absurd h (by simp)
      · injection h with h
        exact ⟨_, congrArg OverviewData.TopCountries h.symm⟩

theorem sumUsers_map_assignPct (T : Int) (cpairs : List (GoStr × Int)) :
    sumUsers (cpairs.map (assignPct T)) = usersTotal cpairs := by
  simp only [sumUsers, usersTotal, List.map_map]
  rfl

theorem overview_pct_members (rows : List Row) (d : OverviewData)
    (h : readOverviewFile rows = .ok d) :
    ∀ c ∈ d.TopCountries,
      c.Percentage = pctOfUsers (sumUsers d.TopCountries) c.Users := by
  obtain ⟨cpairs, hc⟩ := readOverviewFile_countries rows d h
  intro c hmem
  rw [hc] at hmem
  obtain ⟨p, _, rfl⟩ := List.mem_map.mp hmem
  rw [hc, sumUsers_map_assignPct]
  rfl

theorem sumPct_of_members (T : Int) (cs : List CountryData)
    (hp : ∀ c ∈ cs, c.Percentage = pctOfUsers T c.Users) :
    sumPct cs =
      if 0 < T then ((sumUsers cs : ℚ) * 100) / (T : ℚ) else 0 := by
  induction cs with
  | nil =>
    simp only [sumPct, sumUsers, List.map_nil, List.sum_nil]
    split <;> simp
  | cons c cs ih =>
    have hc := hp c (List.mem_cons_self c cs)
    have hcs := ih fun x hx => hp x (List.mem_cons_of_mem c hx)
    simp only [sumPct, List.map_cons, List.sum_cons] at hcs ⊢
    rw [hc, hcs]
    simp only [pctOfUsers, sumUsers, List.map_cons, List.sum_cons]
    split
    · rw [div_add_div_same]
      congr 1
      push_cast
      ring
    · simp

/-- C5: whenever the parsed user-count total is strictly positive the
computed country percentages sum to exactly 100 (the rational value of the
float computation), whenever it is zero every percentage is left at zero,
and the concrete snapshot with user counts 60 and 40 parses to percentages
60 and 40. -/
theorem C5_percentages_sum :
    (∀ rows d, readOverviewFile rows = .ok d →
      (0 < sumUsers d.TopCountries → sumPct d.TopCountries = 100) ∧
      (sumUsers d.TopCountries = 0 →
        ∀ c ∈ d.TopCountries, c.Percentage = 0)) ∧
    readOverviewFile overviewRows6040 = .ok overview6040 ∧
    overview6040.TopCountries.map CountryData.Percentage = [60, 40] := by
  refine ⟨?_, rfl, by norm_num [overview6040, pctOfUsers]⟩
  intro rows d h
  have hm := overview_pct_members rows d h
  have hs := sumPct_of_members _ _ hm
  constructor
  · intro hpos
    rw [hs, if_pos hpos]
    have hT : (sumUsers d.TopCountries : ℚ) ≠ 0 := by
      exact_mod_cast hpos.ne'
    field_simp
  · intro hz c hc
    rw [hm c hc, pctOfUsers, hz]
    simp

/-! ## C9: failure conditions of the overview reader -/

theorem findRowWith_none_iff (sent : GoStr) (rows : List Row) :
    findRowWith sent rows = none ↔
      rows.any (fun r => !r.isEmpty && startsWithStr sent (trimSpace (getF r 0)))
        = false := by
  induction rows with
  | nil => simp [findRowWith]
  | cons r rs ih =>
    simp only [findRowWith, List.any_cons]
    cases hc : (!r.isEmpty && startsWithStr sent (trimSpace (getF r 0))) <;>
      simp [hc, ih]

theorem findRowWith_suffix (sent : GoStr) (rows rest : List Row)
    (h : findRowWith sent rows = some rest) : rest.IsSuffix rows := by
  induction rows with
  | nil => simp [findRowWith] at h
  | cons r rs ih =>
    simp only [findRowWith] at h
    split at h
    · injection h with h
      subst h
      exact List.suffix_cons r rs
    · exact (ih h).trans (List.suffix_cons r rs)

/-- C9 (amended): on record-level input (every `encoding/csv` record is
nonempty), the overview reader fails exactly when the workspace sentinel is
never found, or when the input ends immediately after the sentinel row;
whenever the sentinel is found with at least one row after it, parsing
succeeds. -/
theorem C9_failure_exactly (rows : List Row) (hne : ∀ r ∈ rows, r ≠ []) :
    (readOverviewFile rows = .err ↔
      (wsSentinelFound rows = false ∨
        findRowWith wsSentinel rows = some [])) ∧
    (∀ rest, findRowWith wsSentinel rows = some rest → rest ≠ [] →
      ∃ d, readOverviewFile rows = .ok d) := by
  cases hf : findRowWith wsSentinel rows with
  | none =>
    have hws : wsSentinelFound rows = false :=
      (findRowWith_none_iff wsSentinel rows).mp hf
    constructor
    · unfold readOverviewFile
      rw [hf]
      simp [hws]
    · intro rest hr
      simp at hr
  | some rest =>
    have hws : wsSentinelFound rows = true := by
      cases hws : wsSentinelFound rows
      · have := (findRowWith_none_iff wsSentinel rows).mpr hws
        rw [hf] at this
        cases this
      · rfl
    cases rest with
    | nil =>
      constructor
      · unfold readOverviewFile
        rw [hf]
        simp [hws, hf]
      · intro rest2 hr h2
        injection hr with hr
        exact absurd hr.symm h2
    | cons rec rest2 =>
      have hrec : rec ≠ [] := by
        have hsuf := findRowWith_suffix wsSentinel rows _ hf
        exact hne rec (hsuf.subset (List.mem_cons_self _ _))
      obtain ⟨f0, fs, rfl⟩ : ∃ f0 fs, rec = f0 :: fs := by
        cases rec with
        | nil => exact absurd rfl hrec
        | cons a b => exact ⟨a, b, rfl⟩
      have hok : ∃ d, readOverviewFile rows = .ok d := by
        unfold readOverviewFile
        rw [hf]
        exact ⟨_, rfl⟩
      obtain ⟨d, hok⟩ := hok
      constructor
      · rw [hok]
        simp [hws, hf]
      · intro rest' _ _
        exact ⟨d, hok⟩

/-- C9 (counterexample): an input whose sentinel row is the last record:
the sentinel is found, yet the reader fails (the read of the data row after
the sentinel returns the end-of-input error), so "for every input in which
the sentinel is found, parsing does not fail" is false. -/
theorem C9_sentinel_found_yet_error :
    wsSentinelFound sentinelOnlyRows = true ∧
    readOverviewFile sentinelOnlyRows = .err :=
  ⟨by decide, by decide⟩

/-- C9 witness: the amended failure characterization applied to the
concrete two-country overview input. -/
theorem C9_failure_exactly_witness :
    (readOverviewFile overviewRows6040 = .err ↔
      (wsSentinelFound overviewRows6040 = false ∨
        findRowWith wsSentinel overviewRows6040 = some [])) ∧
    (∀ rest, findRowWith wsSentinel overviewRows6040 = some rest → rest ≠ [] →
      ∃ d, readOverviewFile overviewRows6040 = .ok d) :=
  C9_failure_exactly overviewRows6040 (by decide)

/-! ## C7: lemmas about whitespace collapsing -/

theorem dropWhile_head_false (q : Char → Bool) (l : GoStr) (x : Char)
    (xs : GoStr) (h : l.dropWhile q = x :: xs) : q x = false := by
  induction l with
  | nil => simp at h
  | cons c cs ih =>
    rw [List.dropWhile_cons] at h
    by_cases hq : q c = true
    · rw [if_pos hq] at h
      exact ih h
    · rw [if_neg hq] at h
      injection h with h1 _
      subst h1
      simpa using hq

theorem splitWS_ne_nil (s : GoStr) : splitWS s ≠ [] := by
  cases s with
  | nil => simp [splitWS]
  | cons c cs =>
    simp only [splitWS]
    cases h : splitWS cs with
    | nil => simp
    | cons w ws => cases hc : isGoSpace c <;> simp [hc]

theorem splitWS_of_dropWhile_nil (s : GoStr)
    (h : s.dropWhile (fun d => !isGoSpace d) = []) :
    splitWS s = [s.takeWhile (fun d => !isGoSpace d)] := by
  induction s with
  | nil => simp [splitWS]
  | cons c cs ih =>
    rw [List.dropWhile_cons] at h
    cases hc : isGoSpace c with
    | true =>
      rw [if_neg (by simp [hc])] at h
      simp at h
    | false =>
      rw [if_pos (by simp [hc])] at h
      have := ih h
      simp only [splitWS, this, List.takeWhile_cons]
      simp [hc]

theorem splitWS_of_dropWhile_cons (s : GoStr) (d : Char) (du : GoStr)
    (h : s.dropWhile (fun x => !isGoSpace x) = d :: du) :
    splitWS s = s.takeWhile (fun x => !isGoSpace x) :: splitWS du := by
  induction s with
  | nil => simp at h
  | cons c cs ih =>
    rw [List.dropWhile_cons] at h
    cases hc : isGoSpace c with
    | true =>
      rw [if_neg (by simp [hc])] at h
      obtain ⟨rfl, rfl⟩ : c = d ∧ cs = du := by
        injection h with h1 h2
        exact ⟨h1, h2⟩
      simp only [splitWS, List.takeWhile_cons]
      cases hsp : splitWS cs with
      | nil => exact absurd hsp (splitWS_ne_nil cs)
      | cons w ws => simp [hc]
    | false =>
      rw [if_pos (by simp [hc])] at h
      have := ih h
      simp only [splitWS, this, List.takeWhile_cons]
      simp [hc]

theorem fieldsWS_nil : fieldsWS [] = [] := rfl

theorem fieldsWS_ws (c : Char) (cs : GoStr) (hc : isGoSpace c = true) :
    fieldsWS (c :: cs) = fieldsWS cs := by
  simp only [fieldsWS, splitWS]
  cases h : splitWS cs with
  | nil => exact absurd h (splitWS_ne_nil cs)
  | cons w ws => simp [hc]

theorem fieldsWS_word (c : Char) (cs : GoStr) (hc : isGoSpace c = false) :
    fieldsWS (c :: cs) =
      (c :: cs.takeWhile (fun x => !isGoSpace x)) ::
        fieldsWS (cs.dropWhile (fun x => !isGoSpace x)) := by
  cases h : cs.dropWhile (fun x => !isGoSpace x) with
  | nil =>
    have hsp := splitWS_of_dropWhile_nil cs h
    rw [fieldsWS_nil]
    simp only [fieldsWS, splitWS, hsp]
    simp [hc]
  | cons d du =>
    have hsp := splitWS_of_dropWhile_cons cs d du h
    have hd : isGoSpace d = true := by
      have := dropWhile_head_false _ cs d du h
      simpa using this
    rw [fieldsWS_ws d du hd]
    simp only [fieldsWS, splitWS, hsp]
    simp [hc]

theorem fieldsWS_skip_ws (r : GoStr) :
    fieldsWS (r.dropWhile isGoSpace) = fieldsWS r := by
  induction r with
  | nil => rfl
  | cons c cs ih =>
    rw [List.dropWhile_cons]
    cases hc : isGoSpace c with
    | true =>
      rw [if_pos (by simp [hc])]
      rw [ih, fieldsWS_ws c cs hc]
    | false => rw [if_neg (by simp [hc])]

theorem runCollapseF_words (w r : GoStr)
    (hw : ∀ c ∈ w, isGoSpace c = false) :
    runCollapseF false (w ++ r) = w ++ runCollapseF false r := by
  induction w with
  | nil => rfl
  | cons c cs ih =>
    have hc := hw c (List.mem_cons_self c cs)
    have hcs : ∀ x ∈ cs, isGoSpace x = false :=
      fun x hx => hw x (List.mem_cons_of_mem c hx)
    simp only [List.cons_append, runCollapseF, hc]
    rw [if_neg (by simp)]
    exact congrArg (List.cons c) (ih hcs)

theorem runCollapseF_skip (r : GoStr) :
    runCollapseF true r = runCollapseF false (r.dropWhile isGoSpace) := by
  induction r with
  | nil => rfl
  | cons c cs ih =>
    rw [List.dropWhile_cons]
    cases hc : isGoSpace c with
    | true =>
      rw [if_pos (by simp [hc])]
      simp only [runCollapseF, hc]
      exact ih
    | false =>
      rw [if_neg (by simp [hc])]
      simp [runCollapseF, hc]

theorem head?_append_of_ne_nil (l₁ l₂ : GoStr) (h : l₁ ≠ []) :
    (l₁ ++ l₂).head? = l₁.head? := by
  cases l₁ with
  | nil => exact absurd rfl h
  | cons a l => rfl

theorem getLast?_append_right (w r : GoStr) (h : r ≠ []) :
    (w ++ r).getLast? = r.getLast? := by
  rw [← List.head?_reverse, ← List.head?_reverse, List.reverse_append]
  exact head?_append_of_ne_nil _ _ (by simpa using h)

theorem getLast?_of_suffix (t r : GoStr) (hsuf : t.IsSuffix r) (h : t ≠ []) :
    r.getLast? = t.getLast? := by
  obtain ⟨u, rfl⟩ := hsuf
  exact getLast?_append_right u t h

theorem joinSpace_cons₂ (w x : GoStr) (xs : List GoStr) :
    joinSpace (w :: x :: xs) = w ++ ' ' :: joinSpace (x :: xs) := rfl

theorem collapse_main (n : Nat) : ∀ s : GoStr, s.length ≤ n →
    (∀ c, s.head? = some c → isGoSpace c = false) →
    (∀ c, s.getLast? = some c → isGoSpace c = false) →
    joinSpace (fieldsWS s) = runCollapse s := by
  induction n with
  | zero =>
    intro s hlen _ _
    have hs : s = [] := List.length_eq_zero.mp (Nat.le_zero.mp hlen)
    subst hs
    rfl
  | succ n ih =>
    intro s hlen hhead hlast
    cases s with
    | nil => rfl
    | cons c cs =>
      have hc : isGoSpace c = false := hhead c rfl
      set w : GoStr := c :: cs.takeWhile (fun x => !isGoSpace x) with hw
      set r : GoStr := cs.dropWhile (fun x => !isGoSpace x) with hr
      have hwchars : ∀ x ∈ w, isGoSpace x = false := by
        intro x hx
        rcases List.mem_cons.mp hx with rfl | hx
        · exact hc
        · simpa using List.mem_takeWhile_imp hx
      have hsw : c :: cs = w ++ r := by
        rw [hw, hr]
        simp [List.takeWhile_append_dropWhile]
      have hfields : fieldsWS (c :: cs) = w :: fieldsWS r := fieldsWS_word c cs hc
      have hrc : runCollapse (c :: cs) = w ++ runCollapseF false r := by
        rw [runCollapse, hsw]
        exact runCollapseF_words w r hwchars
      cases hrcase : r with
      | nil =>
        rw [hfields, hrcase, hrc, hrcase]
        simp [fieldsWS_nil, joinSpace, runCollapseF]
      | cons d r2 =>
        have hd : isGoSpace d = true := by
          have := dropWhile_head_false _ cs d r2 (hr.symm.trans hrcase)
          simpa using this
        set t : GoStr := r2.dropWhile isGoSpace with ht
        have hlast_s : ∀ x, (c :: cs).getLast? = some x → isGoSpace x = false :=
          hlast
        have hrne : r ≠ [] := by rw [hrcase]; simp
        have hlast_r : r.getLast? = (c :: cs).getLast? := by
          rw [hsw]
          exact (getLast?_append_right w r hrne).symm
        have ht_ne : t ≠ [] := by
          intro habs
          have hall : ∀ x ∈ r2, isGoSpace x = true := by
            have := List.dropWhile_eq_nil_iff.mp (ht.symm.trans habs)
            simpa using this
          have hallr : ∀ x ∈ r, isGoSpace x = true := by
            intro x hx
            rw [hrcase] at hx
            rcases List.mem_cons.mp hx with rfl | hx
            · exact hd
            · exact hall x hx
          obtain ⟨x, hx⟩ : ∃ x, r.getLast? = some x := by
            cases hgl : r.getLast? with
            | none => rw [List.getLast?_eq_none_iff] at hgl; exact absurd hgl hrne
            | some x => exact ⟨x, rfl⟩
          have hmem : x ∈ r := List.mem_of_mem_getLast? hx
          have h1 : isGoSpace x = true := hallr x hmem
          have h2 : isGoSpace x = false := hlast_s x (hlast_r ▸ hx)
          rw [h1] at h2
          cases h2
        have hr2ne : r2 ≠ [] := by
          intro habs
          rw [habs] at ht
          simp at ht
          exact ht_ne ht
        have hfr : fieldsWS r = fieldsWS t := by
          rw [hrcase, fieldsWS_ws d r2 hd, ht, fieldsWS_skip_ws]
        have hrct : runCollapseF false r = ' ' :: runCollapseF false t := by
          rw [hrcase]
          simp [runCollapseF, hd, runCollapseF_skip, ht]
        have ht_head : ∀ x, t.head? = some x → isGoSpace x = false := by
          intro x hx
          cases htc : t with
          | nil => exact absurd htc ht_ne
          | cons e t2 =>
            rw [htc] at hx
            injection hx with hx
            rw [← hx]
            exact dropWhile_head_false isGoSpace r2 e t2 (ht.symm.trans htc)
        have ht_last : ∀ x, t.getLast? = some x → isGoSpace x = false := by
          intro x hx
          apply hlast_s x
          rw [← hlast_r, hrcase]
          have h1 : (d :: r2).getLast? = r2.getLast? :=
            getLast?_append_right [d] r2 hr2ne
          have h2 : r2.getLast? = t.getLast? :=
            getLast?_of_suffix t r2 (ht ▸ List.dropWhile_suffix isGoSpace) ht_ne
          rw [h1, h2, hx]
        have ht_len : t.length ≤ n := by
          have h1 : t.length ≤ r2.length :=
            (ht ▸ (List.dropWhile_sublist isGoSpace).length_le :
              (r2.dropWhile isGoSpace).length ≤ r2.length)
          have h2 : r.length ≤ cs.length := by
            rw [hr]
            exact (List.dropWhile_sublist _).length_le
          have h3 : r.length = r2.length + 1 := by rw [hrcase]; rfl
          simp only [List.length_cons] at hlen
          omega
        have hIH := ih t ht_len ht_head ht_last
        have hft_ne : fieldsWS t ≠ [] := by
          cases htc : t with
          | nil => exact absurd htc ht_ne
          | cons e t2 =>
            have he : isGoSpace e = false := ht_head e (by rw [htc]; rfl)
            rw [fieldsWS_word e t2 he]
            simp
        rw [hfields, hfr, hrc, hrct]
        cases hft : fieldsWS t with
        | nil => exact absurd hft hft_ne
        | cons x xs =>
          rw [joinSpace_cons₂]
          rw [hft] at hIH
          rw [hIH]
          rfl

theorem splitWS_map_wsinv (f : Char → Char)
    (hf1 : ∀ c, isGoSpace (f c) = isGoSpace c)
    (hf2 : ∀ c, isGoSpace c = false → f c = c) :
    ∀ s : GoStr, splitWS (s.map f) = splitWS s := by
  intro s
  induction s with
  | nil => rfl
  | cons c cs ih =>
    simp only [List.map_cons, splitWS, ih]
    cases h : splitWS cs with
    | nil => exact absurd h (splitWS_ne_nil cs)
    | cons w ws =>
      cases hc : isGoSpace c with
      | true => simp [hf1, hc]
      | false => simp [hf1, hc, hf2 c hc]

theorem collapseWS_eq_joinSpace_fields (s : GoStr) :
    collapseWS s = joinSpace (fieldsWS s) := by
  have h1 : ∀ s' : GoStr, fieldsWS (replaceChar '\n' ' ' s') = fieldsWS s' := by
    intro s'
    simp only [fieldsWS, replaceChar]
    rw [splitWS_map_wsinv]
    · intro c
      by_cases hc : c = '\n' <;> simp [hc, isGoSpace]
    · intro c hc
      have : ¬c = '\n' := by
        intro habs
        rw [habs, isGoSpace] at hc
        simp at hc
      simp [this]
  have h2 : ∀ s' : GoStr, fieldsWS (replaceChar '\r' ' ' s') = fieldsWS s' := by
    intro s'
    simp only [fieldsWS, replaceChar]
    rw [splitWS_map_wsinv]
    · intro c
      by_cases hc : c = '\r' <;> simp [hc, isGoSpace]
    · intro c hc
      have : ¬c = '\r' := by
        intro habs
        rw [habs, isGoSpace] at hc
        simp at hc
      simp [this]
  rw [collapseWS, h2, h1]

theorem trimmed_dropWhile_eq (s : GoStr) (h : trimSpace s = s) :
    s.dropWhile isGoSpace = s := by
  have hlen : (trimSpace s).length = s.length := by rw [h]
  have h1 : (trimSpace s).length ≤ (s.dropWhile isGoSpace).length := by
    rw [trimSpace]
    simp only [List.length_reverse]
    calc ((s.dropWhile isGoSpace).reverse.dropWhile isGoSpace).length
        ≤ (s.dropWhile isGoSpace).reverse.length :=
          (List.dropWhile_sublist _).length_le
      _ = (s.dropWhile isGoSpace).length := List.length_reverse _
  have h2 : (s.dropWhile isGoSpace).length ≤ s.length :=
    (List.dropWhile_sublist _).length_le
  exact (List.dropWhile_sublist isGoSpace).eq_of_length (by omega)

theorem trimmed_head (s : GoStr) (h : trimSpace s = s) :
    ∀ c, s.head? = some c → isGoSpace c = false := by
  intro c hc
  have hd := trimmed_dropWhile_eq s h
  cases s with
  | nil => simp at hc
  | cons a l =>
    injection hc with hc
    subst hc
    rw [List.dropWhile_cons] at hd
    by_contra habs
    rw [if_pos (by simpa using habs)] at hd
    have := congrArg List.length hd
    have hle : (l.dropWhile isGoSpace).length ≤ l.length :=
      (List.dropWhile_sublist _).length_le
    simp at this
    omega

theorem trimmed_getLast (s : GoStr) (h : trimSpace s = s) :
    ∀ c, s.getLast? = some c → isGoSpace c = false := by
  intro c hc
  have hd := trimmed_dropWhile_eq s h
  have hrev : s.reverse.dropWhile isGoSpace = s.reverse := by
    have : trimSpace s = (s.reverse.dropWhile isGoSpace).reverse := by
      rw [trimSpace, hd]
    rw [h] at this
    have := congrArg List.reverse this
    simpa using this.symm
  have htrev : trimSpace s.reverse = s.reverse := by
    rw [trimSpace, hrev, List.reverse_reverse, hd]
  exact trimmed_head s.reverse htrev c (by rw [List.head?_reverse]; exact hc)

theorem utf8Bytes_ascii (c : Char) (h : c.toNat < 128) : utf8Bytes c = [c.toNat] := by
  simp [utf8Bytes, h]

/-- C7 (amended): for every trimmed display text (the reader trims every
post text at ingestion), the cleaning step of the `truncate` template
function equals the spec's run collapse: newlines and carriage returns and
every whitespace run become a single space; truncation then measures and
slices UTF-8 BYTES, not characters: the collapsed text is returned
unmodified exactly when it is at most 50 bytes long, and otherwise cut at
byte 50 — possibly inside a multi-byte character — with an ellipsis marker
appended; on pure-ASCII text the byte length equals the character count, so
the claim's character reading holds there: a 60-character ASCII text gains
the marker, a 50-character ASCII text is unmodified. -/
theorem C7_truncate_collapse :
    (∀ s : GoStr, trimSpace s = s → collapseWS s = runCollapse s) ∧
    (∀ s : GoStr, (strBytes (collapseWS s)).length ≤ 50 →
      truncate s 50 = strBytes (collapseWS s)) ∧
    (∀ s : GoStr, 50 < (strBytes (collapseWS s)).length →
      truncate s 50 = (strBytes (collapseWS s)).take 50 ++ strBytes "...".toList) ∧
    (∀ s : GoStr, (∀ c ∈ s, c.toNat < 128) → (strBytes s).length = s.length) ∧
    truncate sixtyChars 50 = strBytes (sixtyChars.take 50) ++ strBytes "...".toList ∧
    truncate fiftyChars 50 = strBytes fiftyChars := by
  refine ⟨?_, ?_, ?_, ?_, by decide, by decide⟩
  · intro s hs
    rw [collapseWS_eq_joinSpace_fields]
    exact collapse_main s.length s le_rfl (trimmed_head s hs) (trimmed_getLast s hs)
  · intro s h
    rw [truncate, if_pos h]
  · intro s h
    rw [truncate, if_neg (by omega)]
  · intro s h
    induction s with
    | nil => rfl
    | cons c cs ih =>
      have hc : utf8Bytes c = [c.toNat] :=
        utf8Bytes_ascii c (h c (List.mem_cons_self c cs))
      have hih := ih fun x hx => h x (List.mem_cons_of_mem c hx)
      simp [strBytes, hc, hih]

/-- C7 counterexample: a display text of twenty-six two-byte characters
collapses to itself, twenty-six characters — at most 50, so the claim says
it is left unmodified with no marker — yet the code measures its 52 bytes,
cuts at byte 50 (splitting the last character) and appends the marker. -/
theorem C7_truncate_bytes_counterexample :
    (collapseWS accented26).length ≤ 50 ∧
    truncate accented26 50 ≠ strBytes (collapseWS accented26) ∧
    truncate accented26 50 =
      (strBytes accented26).take 50 ++ strBytes "...".toList := by
  refine ⟨by decide, by decide, by decide⟩

/-- C7 witness: the collapse equivalence applied to a concrete trimmed
text with an internal newline and a run of blanks. -/
theorem C7_truncate_collapse_witness :
    collapseWS ("ab\n\ncd  ef".toList) = runCollapse ("ab\n\ncd  ef".toList) :=
  C7_truncate_collapse.1 ("ab\n\ncd  ef".toList) (by decide)

/-! ## C8: failure conditions of the period extractor -/

theorem splitOnChar_ne_nil (sep : Char) (s : GoStr) : splitOnChar sep s ≠ [] := by
  cases s with
  | nil => simp [splitOnChar]
  | cons c cs =>
    simp only [splitOnChar]
    cases h : splitOnChar sep cs with
    | nil => simp
    | cons w ws => by_cases hc : c = sep <;> simp [hc]

/-- C8: the period extractor returns a format error exactly when the
filename has fewer than three delimiter segments, or the date range cannot
be split (its split has no piece — in fact impossible, as the final
conjunct records: a split is never empty, so this listed failure case is
vacuous), or the month abbreviation is not in the month map, or the first
date has fewer than three fields; the error carries no partial period key
(`Except.error ()` holds nothing). -/
theorem C8_format_error_exactly (filename : GoStr) :
    (extractDateFromFilename filename = .error () ↔
      ((splitOnChar bulletCh filename).length < 3 ∨
        (edDateRange filename).length < 1 ∨
        lookupStr monthNumPairs ((edComps filename).getD 1 []) = none ∨
        (edComps filename).length < 3)) ∧
    edDateRange filename ≠ [] := by
  refine ⟨?_, splitOnChar_ne_nil '-' (edDatePart filename)⟩
  by_cases h1 : (splitOnChar bulletCh filename).length < 3
  · simp [extractDateFromFilename, h1]
  · by_cases h2 : (edDateRange filename).length < 1
    · simp [extractDateFromFilename, h1, h2]
    · by_cases h3 : (edComps filename).length < 3
      · simp [extractDateFromFilename, h1, h2, h3]
      · unfold extractDateFromFilename
        rw [if_neg h1, if_neg h2, if_neg h3]
        cases hm : lookupStr monthNumPairs ((edComps filename).getD 1 []) with
        | none => simp [h1, h2, h3]
        | some mn => simp [h1, h2, h3]

/-! ## C10: what top-five selection preserves -/

theorem sumUsers_of_perm (l₁ l₂ : List CountryData) (h : List.Perm l₁ l₂) :
    sumUsers l₁ = sumUsers l₂ :=
  (h.map CountryData.Users).sum_eq

theorem sumUsers_append (l₁ l₂ : List CountryData) :
    sumUsers (l₁ ++ l₂) = sumUsers l₁ + sumUsers l₂ := by
  simp [sumUsers]

theorem sumUsers_nonneg (l : List CountryData) (h : ∀ c ∈ l, 0 ≤ c.Users) :
    0 ≤ sumUsers l := by
  refine List.sum_nonneg ?_
  intro x hx
  obtain ⟨c, hc, rfl⟩ := List.mem_map.mp hx
  exact h c hc

theorem users_le_sumUsers (l : List CountryData) (c : CountryData)
    (h : ∀ x ∈ l, 0 ≤ x.Users) (hc : c ∈ l) : c.Users ≤ sumUsers l :=
  List.single_le_sum (fun x hx => by
    obtain ⟨y, hy, rfl⟩ := List.mem_map.mp hx
    exact h y hy) _ (List.mem_map_of_mem CountryData.Users hc)

/-- C10 (amended): top-five selection only reorders and shortens: every
retained record of the three top lists is an element of the corresponding
input list, fields untouched; each retained country's percentage is still
its share of the user-count total over ALL parsed countries; and, user
counts being nonnegative, the displayed percentages sum to AT MOST 100,
and are strictly below 100 exactly when the user-count total is zero
(every percentage is then zero) or some dropped country carries a strictly
positive user count; in particular a dropped country with zero users and a
positive total leaves the displayed sum at exactly 100, as
`C10_sum_exactly_100_counterexample` shows. -/
theorem C10_selection_preserves_records (rows : List Row) (d : OverviewData)
    (posts : List PostData) (hashtags : List HashtagData) (f : GoStr)
    (hok : readOverviewFile rows = .ok d)
    (hnn : ∀ c ∈ d.TopCountries, 0 ≤ c.Users) :
    (∀ c ∈ (prepareReportData d posts hashtags f).TopCountries,
      c ∈ d.TopCountries) ∧
    (∀ p ∈ (prepareReportData d posts hashtags f).TopPosts, p ∈ posts) ∧
    (∀ h ∈ (prepareReportData d posts hashtags f).TopHashtags, h ∈ hashtags) ∧
    (∀ c ∈ (prepareReportData d posts hashtags f).TopCountries,
      c.Percentage = pctOfUsers (sumUsers d.TopCountries) c.Users) ∧
    sumPct (prepareReportData d posts hashtags f).TopCountries ≤ 100 ∧
    (∀ c ∈ droppedCountries d, 0 < c.Users →
      sumPct (prepareReportData d posts hashtags f).TopCountries < 100) ∧
    (sumPct (prepareReportData d posts hashtags f).TopCountries < 100 ↔
      (sumUsers d.TopCountries = 0 ∨
        ∃ c ∈ droppedCountries d, 0 < c.Users)) := by
  have hsubC : ∀ c ∈ (prepareReportData d posts hashtags f).TopCountries,
      c ∈ d.TopCountries := fun c hc =>
    (mem_sortSlice countryLess d.TopCountries c).mp (List.take_subset 5 _ hc)
  have hpm := overview_pct_members rows d hok
  have hpct : ∀ c ∈ (prepareReportData d posts hashtags f).TopCountries,
      c.Percentage = pctOfUsers (sumUsers d.TopCountries) c.Users :=
    fun c hc => hpm c (hsubC c hc)
  have hTC : (prepareReportData d posts hashtags f).TopCountries =
      (sortSlice countryLess d.TopCountries).take 5 := rfl
  have hpct5 : ∀ c ∈ (sortSlice countryLess d.TopCountries).take 5,
      c.Percentage = pctOfUsers (sumUsers d.TopCountries) c.Users := by
    rw [← hTC]
    exact hpct
  have hsum := sumPct_of_members (sumUsers d.TopCountries) _ hpct5
  have hsplit : sumUsers d.TopCountries =
      sumUsers ((sortSlice countryLess d.TopCountries).take 5) +
        sumUsers (droppedCountries d) := by
    rw [← sumUsers_append]
    simp only [droppedCountries]
    rw [List.take_append_drop]
    exact sumUsers_of_perm _ _ (sortSlice_perm countryLess d.TopCountries).symm
  have hdropnn : ∀ c ∈ droppedCountries d, 0 ≤ c.Users := fun c hc =>
    hnn c ((mem_sortSlice countryLess d.TopCountries c).mp
      (List.drop_subset 5 _ hc))
  have htopnn : ∀ c ∈ (sortSlice countryLess d.TopCountries).take 5,
      0 ≤ c.Users := fun c hc =>
    hnn c ((mem_sortSlice countryLess d.TopCountries c).mp
      (List.take_subset 5 _ hc))
  have hstrict : ∀ c ∈ droppedCountries d, 0 < c.Users →
      sumPct (prepareReportData d posts hashtags f).TopCountries < 100 := by
    intro c hc hcpos
    have hD : 0 < sumUsers (droppedCountries d) := by
      have := users_le_sumUsers _ c hdropnn hc
      omega
    have hpos : 0 < sumUsers d.TopCountries := by
      have := sumUsers_nonneg _ htopnn
      omega
    have hS : sumUsers ((sortSlice countryLess d.TopCountries).take 5) <
        sumUsers d.TopCountries := by omega
    rw [hTC, hsum, if_pos hpos, div_lt_iff₀ (by exact_mod_cast hpos)]
    have : (sumUsers ((sortSlice countryLess d.TopCountries).take 5) : ℚ) <
        (sumUsers d.TopCountries : ℚ) := by exact_mod_cast hS
    linarith
  refine ⟨hsubC, ?_, ?_, hpct, ?_, hstrict, ?_, ?_⟩
  · intro p hp
    exact (mem_sortSlice postLess posts p).mp (List.take_subset 5 _ hp)
  · intro h hh
    exact (mem_sortSlice hashtagLess hashtags h).mp (List.take_subset 5 _ hh)
  · rw [hTC, hsum]
    split
    · rename_i hpos
      have hS : sumUsers ((sortSlice countryLess d.TopCountries).take 5) ≤
          sumUsers d.TopCountries := by
        have := sumUsers_nonneg _ hdropnn
        omega
      rw [div_le_iff₀ (by exact_mod_cast hpos)]
      have : (sumUsers ((sortSlice countryLess d.TopCountries).take 5) : ℚ) ≤
          (sumUsers d.TopCountries : ℚ) := by exact_mod_cast hS
      linarith
    · norm_num
  · intro hlt
    by_cases hz : sumUsers d.TopCountries = 0
    · exact Or.inl hz
    · refine Or.inr ?_
      by_contra hno
      push_neg at hno
      have hdzero : ∀ c ∈ droppedCountries d, c.Users = 0 := by
        intro c hc
        have h1 := hdropnn c hc
        have h2 := hno c hc
        omega
      have hD : sumUsers (droppedCountries d) = 0 := by
        refine List.sum_eq_zero ?_
        intro x hx
        obtain ⟨c, hc, rfl⟩ := List.mem_map.mp hx
        exact hdzero c hc
      have hpos : 0 < sumUsers d.TopCountries := by
        have := sumUsers_nonneg _ htopnn
        omega
      rw [hTC, hsum, if_pos hpos] at hlt
      have hS : sumUsers ((sortSlice countryLess d.TopCountries).take 5) =
          sumUsers d.TopCountries := by omega
      rw [hS, div_lt_iff₀ (by exact_mod_cast hpos)] at hlt
      have hT0 : (0 : ℚ) < (sumUsers d.TopCountries : ℚ) := by exact_mod_cast hpos
      linarith
  · intro h
    rcases h with hz | ⟨c, hc, hcpos⟩
    · rw [hTC, hsum, if_neg (by omega)]
      norm_num
    · exact hstrict c hc hcpos

/-- C10 (counterexample): six parsed countries, the sixth with zero users:
the five displayed percentages sum to exactly 100, not strictly less. -/
theorem C10_sum_exactly_100_counterexample :
    readOverviewFile sixCountryRows = .ok sixCountryOverview ∧
    5 < sixCountryOverview.TopCountries.length ∧
    sumPct (prepareReportData sixCountryOverview [] [] []).TopCountries
      = 100 := by
  refine ⟨rfl, by decide, ?_⟩
  have h : (prepareReportData sixCountryOverview [] [] []).TopCountries =
      [{ Country := "Poland".toList, Users := 1, Percentage := pctOfUsers 5 1 },
       { Country := "Italy".toList, Users := 1, Percentage := pctOfUsers 5 1 },
       { Country := "Spain".toList, Users := 1, Percentage := pctOfUsers 5 1 },
       { Country := "France".toList, Users := 1, Percentage := pctOfUsers 5 1 },
       { Country := "Germany".toList, Users := 1, Percentage := pctOfUsers 5 1 }] :=
    rfl
  rw [h]
  norm_num [sumPct, pctOfUsers]

/-- C10 witness: the amended percentage bound applied to the concrete
six-country snapshot. -/
theorem C10_selection_preserves_witness :
    sumPct (prepareReportData sixCountryOverview [] [] []).TopCountries
      ≤ 100 :=
  (C10_selection_preserves_records sixCountryRows sixCountryOverview [] [] []
    rfl (by decide)).2.2.2.2.1

end Publer
